import Mathlib

/-!
Verification of the hex-board rock-paper-scissors engine shared by the agent
variants in this repository (the `Board` class of `goodthrowtwodeep.py`,
duplicated in `oldman.py`), together with the evaluation function `eval_pos`,
the minimax driver `Player.action` of `goodthrowtwodeep.py`, and the opening
dispatch of `Player.action` in `oldman.py`.

Python tokens are one-character strings such as `R` or `s`; we embed a token
as a pair of an owner (upper or lower, the case of the character) and a
symbol (rock, paper or scissors, the letter).  Boards map every axial
coordinate to the list of tokens on that hex; the Python dict holds exactly
the 61 valid hexes, so functions that iterate over the dict are embedded as
iterations over the list `ORD_HEXES`.
-/

namespace RPS

/-- Rock, paper or scissors: the letter of a Python token character. -/
inductive Sym
  | r
  | p
  | s
deriving DecidableEq, Repr, Fintype

/-- The side owning a token: the case of the Python token character. -/
inductive Owner
  | upper
  | lower
deriving DecidableEq, Repr

/-- A token on the board: owner (character case) plus symbol (letter). -/
structure Tok where
  owner : Owner
  sym : Sym
deriving DecidableEq, Repr

/-- An axial hex coordinate (r, q). -/
abbrev Hex := Int × Int

/-- The list `range(-4, 4 + 1)` from `Board.__init__`. -/
def HEX_RANGE : List Int := [-4, -3, -2, -1, 0, 1, 2, 3, 4]

/-- The list `_ORD_HEXES` from `Board.__init__`: the 61 valid hexes, in the order the
Python list comprehension produces them. -/
def ORD_HEXES : List Hex :=
  HEX_RANGE.flatMap fun r =>
    (HEX_RANGE.filter fun q => decide (-r - q ∈ HEX_RANGE)).map fun q => (r, q)

/-- The list `_HEX_STEPS` from `Board.__init__`: the six axial unit steps. -/
def HEX_STEPS : List (Int × Int) := [(1, -1), (1, 0), (0, 1), (-1, 1), (-1, 0), (0, -1)]

/-- The method `Board._ADJACENT`: the valid hexes one step away from `x`.  The Python
method returns a set; we return the list of step results restricted to the
valid-hex set, which has the same members. -/
def ADJACENT (x : Hex) : List Hex :=
  (HEX_STEPS.map fun d => (x.1 + d.1, x.2 + d.2)).filter fun y => decide (y ∈ ORD_HEXES)

/-- The dictionary `_BEATS_WHAT` from `Board.__init__`: the symbol each symbol defeats. -/
def BEATS_WHAT : Sym → Sym
  | .r => .s
  | .p => .r
  | .s => .p

/-- The game state of the `Board` class: the hex-to-token-stack mapping,
the two throw counters and the turn counter.  The mapping is total on
`Int × Int`; the Python dict holds exactly the hexes of `ORD_HEXES` and all
code only ever reads and writes those keys. -/
structure Board where
  board : Hex → List Tok
  throwsU : Nat
  throwsL : Nat
  nturns : Nat

/-- The counter `self.throws[colour]`. -/
def throwsOf (b : Board) (c : Owner) : Nat :=
  match c with
  | .upper => b.throwsU
  | .lower => b.throwsL

/-- The state built by `Board.__init__`: empty stacks, zero counters. -/
def initialBoard : Board :=
  { board := fun _ => [], throwsU := 0, throwsL := 0, nturns := 0 }

/-- The method `Board._BATTLE(symbols)`: resolves the token stack of one hex, returning
the surviving stack and the per-side count changes (survivor count minus
prior count, as the source computes them).  `types` is the set of distinct
letters present; the Python set is embedded as `List.dedup` of the symbol
list (same members, same cardinality, and the two-symbol branch folds
filters, whose composition does not depend on iteration order). -/
def battle (symbols : List Tok) : List Tok × Int × Int :=
  let types := (symbols.map Tok.sym).dedup
  let upper_cnt := (symbols.filter fun t => t.owner == Owner.upper).length
  let lower_cnt := (symbols.filter fun t => t.owner == Owner.lower).length
  if types.length = 1 then
    (symbols, 0, 0)
  else if types.length = 3 then
    ([], 0 - (upper_cnt : Int), 0 - (lower_cnt : Int))
  else
    let survivors :=
      types.foldl (fun acc t => acc.filter fun s => decide (s.sym ≠ BEATS_WHAT t)) symbols
    (survivors,
      ((survivors.filter fun t => t.owner == Owner.upper).length : Int) - (upper_cnt : Int),
      ((survivors.filter fun t => t.owner == Owner.lower).length : Int) - (lower_cnt : Int))

/-- The action wire shape: `("THROW", s, x)`, `("SLIDE", x, y)` or
`("SWING", x, y)`. -/
inductive Action
  | Throw (s : Sym) (x : Hex)
  | Slide (x : Hex) (y : Hex)
  | Swing (x : Hex) (y : Hex)
deriving DecidableEq, Repr

/-- The sign used by `available_actions` to orient the throw zone. -/
def signOf : Owner → Int
  | .lower => -1
  | .upper => 1

/-- The throw block of `Board.available_actions`: if the throw counter of
`colour` is under 9, three throws (one per symbol, in the order `rps`) for
every hex of the throw zone of `colour`. -/
def throwActions (b : Board) (c : Owner) : List Action :=
  if throwsOf b c < 9 then
    (ORD_HEXES.filter fun x => decide (signOf c * x.1 ≥ 4 - (throwsOf b c : Int))).flatMap
      fun x => [Action.Throw Sym.r x, Action.Throw Sym.p x, Action.Throw Sym.s x]
  else []

/-- The hexes holding at least one token of `colour`: the set `occupied` of
`Board.available_actions`. -/
def occupiedBy (b : Board) (c : Owner) : List Hex :=
  ORD_HEXES.filter fun x => (b.board x).any fun t => t.owner == c

/-- The move block of `Board.available_actions`: for every hex `x` occupied
by `colour` and every `y` adjacent to `x`, a slide from `x` to `y`, and,
when `y` is itself in the occupied set of `colour`, a swing from `x` to
every hex adjacent to `y` that is neither adjacent to `x` nor `x` itself. -/
def moveActions (b : Board) (c : Owner) : List Action :=
  let occupied := occupiedBy b c
  occupied.flatMap fun x =>
    let adjacent_x := ADJACENT x
    adjacent_x.flatMap fun y =>
      Action.Slide x y ::
        (if y ∈ occupied then
          ((ADJACENT y).filter fun z => decide (z ∉ adjacent_x) && decide (z ≠ x)).map
            fun z => Action.Swing x z
        else [])

/-- The method `Board.available_actions(colour)`: the legal actions of one side, as the
list the Python generator yields: the throw block followed by the move
block. -/
def available_actions (b : Board) (c : Owner) : List Action :=
  throwActions b c ++ moveActions b c

/-- One write of the board mapping at one hex. -/
def setHex (b : Board) (x : Hex) (l : List Tok) : Board :=
  { b with board := fun h => if h = x then l else b.board h }

/-- The application of one action by one side, without battle resolution:
the two symmetric blocks inside `Board.update` (and `Board.half_update`).
Returns the updated state and the touched hex appended to `battles`.
A THROW appends a token of the acting side and bumps its counter; a SLIDE or
SWING reads the symbol of the first token at the source (all tokens there
share one symbol for states the game produces), removes the first token of
the acting side with that symbol, and appends it at the destination.  On an
empty source stack the Python code would fail on `self.board[x][0]`; that is
unreachable for validated actions, and we take rock as the default. -/
def applyOne (b : Board) (a : Action) (c : Owner) : Board × Hex :=
  match a with
  | .Throw s x =>
    let b1 := setHex b x (b.board x ++ [⟨c, s⟩])
    (match c with
      | .upper => { b1 with throwsU := b1.throwsU + 1 }
      | .lower => { b1 with throwsL := b1.throwsL + 1 }, x)
  | .Slide x y | .Swing x y =>
    let sym := match b.board x with
      | [] => Sym.r
      | t :: _ => t.sym
    let tok : Tok := ⟨c, sym⟩
    let b1 := setHex b x ((b.board x).erase tok)
    (setHex b1 y (b1.board y ++ [tok]), y)

/-- One pass of the battle loop of `Board.update`: resolves the stack at `x`
and returns the per-side deltas of that battle. -/
def resolveAt (b : Board) (x : Hex) : Board × Int × Int :=
  let r := battle (b.board x)
  (setHex b x r.1, r.2.1, r.2.2)

/-- The apply phase of `Board.update` (the code after the validation loop):
applies the upper action, then the lower action, resolves battles at the two
touched hexes in order, sums the deltas, and increments the turn counter. -/
def applyTurn (b : Board) (upper_action lower_action : Action) : Board × Int × Int :=
  let s1 := applyOne b upper_action Owner.upper
  let s2 := applyOne s1.1 lower_action Owner.lower
  let r1 := resolveAt s2.1 s1.2
  let r2 := resolveAt r1.1 s2.2
  ({ r2.1 with nturns := r2.1.nturns + 1 }, r1.2.1 + r2.2.1, r1.2.2 + r2.2.2)

/-- The method `Board.update(upper_action, lower_action)`: validates both actions
against the currently generated legal lists (upper first, as the Python loop
does) and, only if both pass, runs the apply phase.  The result pairs the
state the object holds after the call with either the returned defeat
deltas or the raised error.  The error carries no data: the Python error
branch first evaluates `self.logger.info(...)`, and `Board` never defines a
`logger` attribute, so an AttributeError escapes before the descriptive
exception naming the rejected action and the legal alternatives is built. -/
def update (b : Board) (upper_action lower_action : Action) :
    Board × Except Unit (Int × Int) :=
  if upper_action ∈ available_actions b Owner.upper then
    if lower_action ∈ available_actions b Owner.lower then
      let r := applyTurn b upper_action lower_action
      (r.1, Except.ok r.2)
    else (b, Except.error ())
  else (b, Except.error ())

/-- The method `Board.half_update(action, colour)`: applies one action without
validation, resolves the battle at the touched hex, discards the deltas and
leaves the turn counter alone. -/
def half_update (b : Board) (a : Action) (c : Owner) : Board :=
  let s := applyOne b a c
  (resolveAt s.1 s.2).1

/-! States reachable by the authoritative update. -/

/-- The game states reachable from the empty initial board by authoritative
updates that validate (return defeat deltas rather than raising). -/
inductive Reachable : Board → Prop
  | init : Reachable initialBoard
  | step (b b2 : Board) (ua la : Action) (d : Int × Int) :
      Reachable b → update b ua la = (b2, Except.ok d) → Reachable b2

/-- All tokens of a stack show one and the same symbol category. -/
def oneSym (l : List Tok) : Prop := ∀ t ∈ l, ∀ u ∈ l, t.sym = u.sym

/-! The evaluation function `eval_pos` of `goodthrowtwodeep.py`.  Its
token-collection phase is executable; the score itself mixes rational
arithmetic with `sqrt`, which the source computes in floating point and we
read in exact real arithmetic, so the score is specified as a predicate
(`score = expression`) rather than a computable function. -/

/-- The value `dist(pos1, pos2) ** 2`: the squared Euclidean distance read off the
axial coordinates, the executable part of `dist`. -/
def sqDist (p q : Hex) : Int := (p.1 - q.1) ^ 2 + (p.2 - q.2) ^ 2

/-- The `own_tokens` dictionary built by `eval_pos`: the hexes whose FIRST
token (`token = token[0]`) is owned by `colour` and shows `hand`.  Only the
first token of each stack is inspected by the source. -/
def own_tokens (board : Hex → List Tok) (colour : Owner) (hand : Sym) : List Hex :=
  ORD_HEXES.filter fun pos =>
    match board pos with
    | [] => false
    | t :: _ => t.owner == colour && t.sym == hand

/-- The `opp_tokens` dictionary built by `eval_pos`: the hexes whose first
token is owned by the opponent of `colour` and shows `hand`. -/
def opp_tokens (board : Hex → List Tok) (colour : Owner) (hand : Sym) : List Hex :=
  ORD_HEXES.filter fun pos =>
    match board pos with
    | [] => false
    | t :: _ => !(t.owner == colour) && t.sym == hand

/-- The collection the claim describes instead: positions of ALL tokens of
`colour` with symbol `hand`, one entry per token (so a stack contributes
with multiplicity). -/
def own_tokens_claim (board : Hex → List Tok) (colour : Owner) (hand : Sym) : List Hex :=
  ORD_HEXES.flatMap fun pos =>
    ((board pos).filter fun t => t.owner == colour && t.sym == hand).map fun _ => pos

/-- Positions of all opponent tokens with symbol `hand`, one entry per
token, as the claim describes. -/
def opp_tokens_claim (board : Hex → List Tok) (colour : Owner) (hand : Sym) : List Hex :=
  ORD_HEXES.flatMap fun pos =>
    ((board pos).filter fun t => !(t.owner == colour) && t.sym == hand).map fun _ => pos

/-- The score formula of `eval_pos` over given own/opponent position
tables: per symbol category with own instances, each own position with
targets adds `(1 + len(targets)/len(positions))` divided by the minimum
Euclidean distance to a target (a category without targets adds 0, as the
float division by `inf` does in the source), and 2 is subtracted per
collected opponent position.  The minimum of the square-root distances is
folded exactly as the loop over `targets` does. -/
def evalFormula (own opponent : Sym → List Hex) (score : ℝ) : Prop :=
  score =
    ([Sym.r, Sym.p, Sym.s].map (fun hand =>
        if own hand = [] then (0 : ℝ)
        else
          ((own hand).map (fun pos =>
            match opponent (BEATS_WHAT hand) with
            | [] => (0 : ℝ)
            | t :: ts =>
              (1 + ((opponent (BEATS_WHAT hand)).length : ℝ) / ((own hand).length : ℝ)) /
                ((ts.map (fun u => Real.sqrt ((sqDist pos u : Int) : ℝ))).foldl min
                  (Real.sqrt ((sqDist pos t : Int) : ℝ))))).sum)).sum -
      ([Sym.r, Sym.p, Sym.s].map (fun hand => 2 * ((opponent hand).length : ℝ))).sum

/-- The relation `eval_pos(board, colour) == score`: the score formula over the tables
the source actually builds (first token of each stack only). -/
def eval_pos (board : Hex → List Tok) (colour : Owner) (score : ℝ) : Prop :=
  evalFormula (own_tokens board colour) (opp_tokens board colour) score

/-- The claimed evaluation: the same formula over ALL tokens on the board,
as the specification describes it. -/
def eval_pos_claim (board : Hex → List Tok) (colour : Owner) (score : ℝ) : Prop :=
  evalFormula (own_tokens_claim board colour) (opp_tokens_claim board colour) score

/-! The minimax driver `Player.action` of `goodthrowtwodeep.py`.  Python
objects live on a heap and `deepcopy` allocates a fresh object, so the
search is embedded against an explicit object heap: board objects are
addressed by allocation index, `deepcopy` copies the addressed state to a
fresh index, and `half_update` mutates exactly the addressed index.  The
claim is about which objects the search writes, so the two sources of
nondeterminism and floating-point arithmetic are oracles: `E` stands for
`eval_pos` (any score function whatsoever) and `ch` for the binary
`random.choice` tie-break. -/

/-- The `opp` dictionary of `Player.action`. -/
def oppOf : Owner → Owner
  | .upper => .lower
  | .lower => .upper

/-- Scores as the search compares them: rationals extended with the
`-inf` and `inf` sentinels of the Python code. -/
abbrev Score := WithBot (WithTop ℚ)

/-- A finite score. -/
def toScore (q : ℚ) : Score := ((q : WithTop ℚ) : Score)

/-- The object heap: board objects by allocation index, plus the next free
index. -/
structure Heap where
  objs : Nat → Board
  next : Nat

/-- Read the object at index `i`. -/
def Heap.get (h : Heap) (i : Nat) : Board := h.objs i

/-- Overwrite the object at index `i` in place. -/
def Heap.set (h : Heap) (i : Nat) (b : Board) : Heap :=
  ⟨fun j => if j = i then b else h.objs j, h.next⟩

/-- The function `deepcopy`: allocate a fresh object holding a copy of object `i`. -/
def deepcopy (h : Heap) (i : Nat) : Heap × Nat :=
  (⟨fun j => if j = h.next then h.get i else h.objs j, h.next + 1⟩, h.next)

/-- The call `obj.half_update(a, c)` on the object at index `i`. -/
def halfUpdateAt (h : Heap) (i : Nat) (a : Action) (c : Owner) : Heap :=
  h.set i (half_update (h.get i) a c)

/-- The throw-pruning loop of `minimax` (the first `for act in all_acts`
loop): non-throw actions are collected in order; each throw is simulated on
a deepcopy, scored by the evaluation oracle from the perspective of the
moving player, and only the best-scoring throw is retained, a tie being
resolved by the binary choice oracle.  Returns the non-throw list, the
retained throw list (at most one element), the best throw score and the
heap after all simulations. -/
def throwPrune (E : Board → Owner → ℚ) (ch : Action → Action → Action)
    (player : Owner) (bid : Nat) :
    List Action → Heap → List Action → List Action → Score →
      List Action × List Action × Score × Heap
  | [], h, acts, bestThrow, bestScore => (acts, bestThrow, bestScore, h)
  | act :: rest, h, acts, bestThrow, bestScore =>
    match act with
    | Action.Throw _ _ =>
      let p := deepcopy h bid
      let h2 := halfUpdateAt p.1 p.2 act player
      let score := toScore (E (h2.get p.2) player)
      let upd : List Action × Score :=
        if bestScore < score then ([act], score) else (bestThrow, bestScore)
      let bt := if score = upd.2 then [ch (upd.1.headD act) act] else upd.1
      throwPrune E ch player bid rest h2 acts bt upd.2
    | _ => throwPrune E ch player bid rest h (acts ++ [act]) bestThrow bestScore

/-- The maximising loop of `minimax` (`player == self.colour`): each
candidate is simulated on a deepcopy, scored by the recursive call `rec`
for the opponent, the running maximum and its action are tracked, `alpha`
is raised, and the loop breaks as soon as `beta <= alpha`. -/
def maxLoop (rec : Heap → Nat → Score → Score → Owner → Option Action →
      Score × Option Action × Heap)
    (player oppP : Owner) (bid : Nat) :
    List Action → Heap → Score → Score → Score → Option Action →
      Score × Option Action × Heap
  | [], h, _, _, maxScore, best => (maxScore, best, h)
  | act :: rest, h, alpha, beta, maxScore, best =>
    let p := deepcopy h bid
    let h2 := halfUpdateAt p.1 p.2 act player
    let r := rec h2 p.2 alpha beta oppP none
    let ms := if maxScore < r.1 then r.1 else maxScore
    let bm := if maxScore < r.1 then some act else best
    let alpha2 := max alpha r.1
    if beta ≤ alpha2 then (ms, bm, r.2.2)
    else maxLoop rec player oppP bid rest r.2.2 alpha2 beta ms bm

/-- The minimising loop of `minimax` (opponent to move): symmetric to
`maxLoop` with `beta` lowered; the incoming best move is returned
untouched, exactly as the source never reassigns `best_move` there. -/
def minLoop (rec : Heap → Nat → Score → Score → Owner → Option Action →
      Score × Option Action × Heap)
    (player oppP : Owner) (bid : Nat) :
    List Action → Heap → Score → Score → Score → Option Action →
      Score × Option Action × Heap
  | [], h, _, _, minScore, best => (minScore, best, h)
  | act :: rest, h, alpha, beta, minScore, best =>
    let p := deepcopy h bid
    let h2 := halfUpdateAt p.1 p.2 act player
    let r := rec h2 p.2 alpha beta oppP none
    let ms := min minScore r.1
    let beta2 := min beta r.1
    if beta2 ≤ alpha then (ms, best, r.2.2)
    else minLoop rec player oppP bid rest r.2.2 alpha beta2 ms best

/-- The recursive `minimax(curr_board, depth, alpha, beta, player,
best_move)` closure of `Player.action`: at depth 0 the evaluation oracle is
consulted from the searching side `self`; otherwise the legal actions of
the mover are generated, throws are pruned to the best one, the retained
throw is appended after the non-throws, and the maximising or minimising
loop runs depending on whether the mover is the searching side. -/
def minimax (E : Board → Owner → ℚ) (ch : Action → Action → Action) (self : Owner) :
    Nat → Heap → Nat → Score → Score → Owner → Option Action →
      Score × Option Action × Heap
  | 0, h, bid, _, _, _, best => (toScore (E (h.get bid) self), best, h)
  | d + 1, h, bid, alpha, beta, player, best =>
    let pr := throwPrune E ch player bid (available_actions (h.get bid) player) h [] [] ⊥
    let acts := pr.1 ++ pr.2.1
    let h1 := pr.2.2.2
    if player = self then
      maxLoop (minimax E ch self d) player (oppOf player) bid acts h1 alpha beta ⊥ best
    else
      minLoop (minimax E ch self d) player (oppOf player) bid acts h1 alpha beta ⊤ best

/-- The method `Player.action` of the minimax agent: runs `minimax` at depth 2 from
the authoritative board object (index `bid`) with the full alpha-beta
window and plays the returned move; the heap after the call is returned so
that its effect on the authoritative object can be stated. -/
def playerAction (E : Board → Owner → ℚ) (ch : Action → Action → Action)
    (colour : Owner) (h : Heap) (bid : Nat) : Option Action × Heap :=
  let r := minimax E ch colour 2 h bid ⊥ ⊤ colour none
  (r.2.1, r.2.2)

/-- Heap evolution produced by the search: the allocation frontier only
grows and every object allocated before the call is untouched. -/
def HeapFrame (h h2 : Heap) : Prop :=
  h.next ≤ h2.next ∧ ∀ j, j < h.next → h2.objs j = h.objs j

/-! The opening dispatch of `Player.action` in `oldman.py`.  The uniformly
random `random.choice` over the legal list and the explicit-stack search
are oracles (`pick`, `dfs`): the claim is only about which of the two the
turn counter selects. -/

/-- The dispatch of `Player.action` in `oldman.py`: with
`self.game_in_head.nturns <= 6` a random legal action is played (`pick`
models `random.choice` applied to the generated legal list), otherwise the
bounded depth-first search (`dfs`) chooses. -/
def oldmanAction (b : Board) (c : Owner)
    (pick : List Action → Option Action) (dfs : Board → Option Action) : Option Action :=
  if b.nturns ≤ 6 then pick (available_actions b c) else dfs b

/-! Concrete states used to instantiate the claims. -/

/-- A board with an upper rock on (0, 0) and a lower scissors on the
adjacent hex (0, 1). -/
def bC2 : Board :=
  { board := fun h =>
      if h = ((0 : Int), (0 : Int)) then [⟨Owner.upper, Sym.r⟩]
      else if h = ((0 : Int), (1 : Int)) then [⟨Owner.lower, Sym.s⟩]
      else [],
    throwsU := 0, throwsL := 0, nturns := 0 }

/-- A board with an upper rock on (0, 0) and an upper paper on the adjacent
hex (0, 1). -/
def bC2W : Board :=
  { board := fun h =>
      if h = ((0 : Int), (0 : Int)) then [⟨Owner.upper, Sym.r⟩]
      else if h = ((0 : Int), (1 : Int)) then [⟨Owner.upper, Sym.p⟩]
      else [],
    throwsU := 0, throwsL := 0, nturns := 0 }

/-- A board mapping with a stack of two lower rocks on (0, 0). -/
def bC6 : Hex → List Tok := fun h =>
  if h = ((0 : Int), (0 : Int)) then [⟨Owner.lower, Sym.r⟩, ⟨Owner.lower, Sym.r⟩] else []

/-- A board mapping with a single lower rock on (0, 0). -/
def bC6W : Hex → List Tok := fun h =>
  if h = ((0 : Int), (0 : Int)) then [⟨Owner.lower, Sym.r⟩] else []

/-- A heap with one allocated (empty, throw-exhausted) board object. -/
def heapC7 : Heap :=
  { objs := fun _ => { board := fun _ => [], throwsU := 9, throwsL := 9, nturns := 0 },
    next := 1 }

/-- A state with six completed turns (so the next call is the seventh
turn), both sides having thrown six times with all tokens annihilated. -/
def bC8 : Board :=
  { board := fun _ => [], throwsU := 6, throwsL := 6, nturns := 6 }

/-- A head-of-list stand-in for the uniformly random choice. -/
def pickC8 : List Action → Option Action := fun l => l.head?

/-- A search oracle distinguishable from any pick of a nonempty list. -/
def dfsC8 : Board → Option Action := fun _ => none

/-! Helper lemmas about `battle`. -/

/-- A left fold of filters is the filter by the conjunction of the tests. -/
theorem foldl_filter (p : Sym → Tok → Bool) :
    ∀ (ts : List Sym) (l : List Tok),
      ts.foldl (fun acc t => acc.filter (p t)) l =
        l.filter fun s => ts.all fun t => p t s := by
  intro ts
  induction ts with
  | nil => intro l; simp
  | cons t ts ih =>
    intro l
    rw [List.foldl_cons, ih, List.filter_filter]
    refine List.filter_congr fun x _ => ?_
    simp [Bool.and_comm]

/-- No symbol beats itself. -/
theorem BEATS_WHAT_ne (a : Sym) : BEATS_WHAT a ≠ a := by
  cases a <;> decide

/-- Membership in the two-symbol survivor filter, at the level of symbols. -/
theorem two_sym_filter_key (a b x : Sym) (hab : BEATS_WHAT a = b)
    (hx : x = a ∨ x = b) :
    ((x ≠ BEATS_WHAT a ∧ x ≠ BEATS_WHAT b) ↔ x ≠ b) := by
  revert hab hx
  revert a b x
  decide

/-- C1: `Board._BATTLE` on any token stack: a stack with a single distinct
symbol is returned unchanged with deltas (0, 0); a stack with all three
symbols present is emptied with deltas the negated prior per-side counts;
and when exactly two symbols `a` and `b` are present with `a` beating `b`,
exactly the tokens of the beaten symbol `b` (of either side) are removed,
the remaining tokens stay, and each delta is the net per-side count
change. -/
theorem C1_battle_resolution (l : List Tok) (a b : Sym) :
    ((l.map Tok.sym).dedup.length = 1 → battle l = (l, 0, 0)) ∧
    ((l.map Tok.sym).dedup.length = 3 →
      battle l = ([], 0 - ((l.filter fun t => t.owner == Owner.upper).length : Int),
                      0 - ((l.filter fun t => t.owner == Owner.lower).length : Int))) ∧
    (BEATS_WHAT a = b → (∀ t ∈ l, t.sym = a ∨ t.sym = b) →
      (∃ t ∈ l, t.sym = a) → (∃ t ∈ l, t.sym = b) →
      battle l = (l.filter fun t => decide (t.sym ≠ b),
        (((l.filter fun t => decide (t.sym ≠ b)).filter
            fun t => t.owner == Owner.upper).length : Int)
          - ((l.filter fun t => t.owner == Owner.upper).length : Int),
        (((l.filter fun t => decide (t.sym ≠ b)).filter
            fun t => t.owner == Owner.lower).length : Int)
          - ((l.filter fun t => t.owner == Owner.lower).length : Int))) := by
  refine ⟨?_, ?_, ?_⟩
  · intro h
    simp only [battle]
    rw [if_pos h]
  · intro h
    simp only [battle]
    rw [if_neg (by rw [h]; decide), if_pos h]
  · intro hab hall ha hb
    have hne : a ≠ b := fun h => BEATS_WHAT_ne a (hab.trans h.symm)
    have hmem : ∀ x, x ∈ (l.map Tok.sym).dedup ↔ x = a ∨ x = b := by
      intro x
      rw [List.mem_dedup, List.mem_map]
      constructor
      · rintro ⟨t, ht, rfl⟩; exact hall t ht
      · rintro (rfl | rfl)
        · obtain ⟨t, ht, hts⟩ := ha; exact ⟨t, ht, hts⟩
        · obtain ⟨t, ht, hts⟩ := hb; exact ⟨t, ht, hts⟩
    have hcard : (l.map Tok.sym).dedup.length = 2 := by
      have hfin : (l.map Tok.sym).toFinset = {a, b} := by
        ext x
        simp only [List.mem_toFinset, Finset.mem_insert, Finset.mem_singleton]
        rw [← List.mem_dedup]
        exact hmem x
      rw [← List.card_toFinset, hfin,
        Finset.card_insert_of_not_mem (by simpa using hne), Finset.card_singleton]
    simp only [battle]
    rw [if_neg (by rw [hcard]; decide), if_neg (by rw [hcard]; decide)]
    have hsurv :
        (l.map Tok.sym).dedup.foldl
            (fun acc t => acc.filter fun s => decide (s.sym ≠ BEATS_WHAT t)) l =
          l.filter fun t => decide (t.sym ≠ b) := by
      rw [foldl_filter]
      refine List.filter_congr fun x hx => ?_
      have hxs := hall x hx
      have hall_iff :
          ((l.map Tok.sym).dedup.all fun t => decide (x.sym ≠ BEATS_WHAT t)) = true ↔
            (x.sym ≠ BEATS_WHAT a ∧ x.sym ≠ BEATS_WHAT b) := by
        rw [List.all_eq_true]
        constructor
        · intro h
          exact ⟨by simpa using h a ((hmem a).2 (Or.inl rfl)),
                 by simpa using h b ((hmem b).2 (Or.inr rfl))⟩
        · intro h t ht
          rcases (hmem t).1 ht with rfl | rfl
          · simpa using h.1
          · simpa using h.2
      have : ((l.map Tok.sym).dedup.all fun t => decide (x.sym ≠ BEATS_WHAT t)) = true ↔
          (decide (x.sym ≠ b) = true) := by
        rw [hall_iff, decide_eq_true_iff]
        exact two_sym_filter_key a b x.sym hab hxs
      exact Bool.eq_iff_iff.2 (by simpa using this)
    rw [hsurv]

/-- C1 witness: the two-symbol case at a concrete stack of an upper rock and
a lower scissors: the lower scissors token is removed with deltas (0, -1). -/
theorem C1_battle_resolution_witness :
    battle [⟨Owner.upper, Sym.r⟩, ⟨Owner.lower, Sym.s⟩] =
      ([⟨Owner.upper, Sym.r⟩], 0, -1) :=
  ((C1_battle_resolution [⟨Owner.upper, Sym.r⟩, ⟨Owner.lower, Sym.s⟩]
      Sym.r Sym.s).2.2 rfl (by decide)
    ⟨⟨Owner.upper, Sym.r⟩, by decide⟩ ⟨⟨Owner.lower, Sym.s⟩, by decide⟩).trans
    (by decide)

/-! Membership lemmas for the action generator. -/

/-- Membership in an if-then-else of lists implies membership in a branch. -/
theorem mem_ite_list {α : Type} {c : Prop} [Decidable c] {a : α} {l1 l2 : List α}
    (h : a ∈ if c then l1 else l2) : a ∈ l1 ∨ a ∈ l2 := by
  split at h
  · exact Or.inl h
  · exact Or.inr h

/-- A throw is in the throw block exactly when the counter of the side is
under 9 and the hex is a valid hex inside the throw zone of the side. -/
theorem mem_throwActions (b : Board) (c : Owner) (sy : Sym) (x : Hex) :
    Action.Throw sy x ∈ throwActions b c ↔
      throwsOf b c < 9 ∧ x ∈ ORD_HEXES ∧ signOf c * x.1 ≥ 4 - (throwsOf b c : Int) := by
  unfold throwActions
  split
  · rename_i h9
    simp only [List.mem_flatMap, List.mem_filter, decide_eq_true_eq, List.mem_cons,
      List.not_mem_nil, or_false, Action.Throw.injEq]
    constructor
    · rintro ⟨x1, ⟨hx1, hcond⟩, hmem⟩
      rcases hmem with ⟨rfl, rfl⟩ | ⟨rfl, rfl⟩ | ⟨rfl, rfl⟩ <;> exact ⟨h9, hx1, hcond⟩
    · rintro ⟨_, hx, hcond⟩
      refine ⟨x, ⟨hx, hcond⟩, ?_⟩
      cases sy
      · exact Or.inl ⟨rfl, rfl⟩
      · exact Or.inr (Or.inl ⟨rfl, rfl⟩)
      · exact Or.inr (Or.inr ⟨rfl, rfl⟩)
  · rename_i h9
    simp [h9]

/-- The move block contains no throw. -/
theorem throw_not_mem_moveActions (b : Board) (c : Owner) (sy : Sym) (x : Hex) :
    Action.Throw sy x ∉ moveActions b c := by
  intro h
  simp only [moveActions, List.mem_flatMap, List.mem_cons] at h
  obtain ⟨x1, _, y, _, hin⟩ := h
  rcases hin with heq | hmem
  · exact Action.noConfusion heq
  · rcases mem_ite_list hmem with h2 | h2
    · simp only [List.mem_map] at h2
      obtain ⟨z, _, heq⟩ := h2
      exact Action.noConfusion heq
    · simp at h2

/-- Membership in the occupied set of a side. -/
theorem mem_occupiedBy (b : Board) (c : Owner) (x : Hex) :
    x ∈ occupiedBy b c ↔ x ∈ ORD_HEXES ∧ ∃ t ∈ b.board x, t.owner = c := by
  unfold occupiedBy
  simp [List.mem_filter, List.any_eq_true, beq_iff_eq]

/-- A slide from an occupied hex to an adjacent hex is generated. -/
theorem slide_mem_moveActions (b : Board) (c : Owner) (x y : Hex)
    (hxo : x ∈ occupiedBy b c) (hy : y ∈ ADJACENT x) :
    Action.Slide x y ∈ moveActions b c := by
  unfold moveActions
  exact List.mem_flatMap.2 ⟨x, hxo, List.mem_flatMap.2 ⟨y, hy, List.mem_cons_self _ _⟩⟩

/-- A swing over an own-occupied adjacent pivot to a far hex is generated. -/
theorem swing_mem_moveActions (b : Board) (c : Owner) (x y z : Hex)
    (hxo : x ∈ occupiedBy b c) (hy : y ∈ ADJACENT x) (hyo : y ∈ occupiedBy b c)
    (hz : z ∈ ADJACENT y) (hz1 : z ∉ ADJACENT x) (hz2 : z ≠ x) :
    Action.Swing x z ∈ moveActions b c := by
  unfold moveActions
  refine List.mem_flatMap.2 ⟨x, hxo, List.mem_flatMap.2 ⟨y, hy, ?_⟩⟩
  refine List.mem_cons.2 (Or.inr ?_)
  rw [if_pos hyo]
  exact List.mem_map.2 ⟨z, List.mem_filter.2 ⟨hz, by simp [hz1, hz2]⟩, rfl⟩

/-- C4: for every state and side, a throw is generated exactly when the
throw counter of that side is under 9 and the target is a valid hex of the
throw zone of that side (upper: r at least 4 minus the counter; lower:
minus r at least 4 minus the counter), for every symbol; moreover the zone
is never empty below 9 throws, so some throw is then generated, and none is
generated at counter 9. -/
theorem C4_throw_generation (b : Board) (c : Owner) :
    (∀ (sy : Sym) (x : Hex),
      Action.Throw sy x ∈ available_actions b c ↔
        throwsOf b c < 9 ∧ x ∈ ORD_HEXES ∧
          signOf c * x.1 ≥ 4 - (throwsOf b c : Int)) ∧
    (throwsOf b c < 9 →
      Action.Throw Sym.r (signOf c * 4, signOf c * (-4)) ∈ available_actions b c) := by
  have hmem : ∀ (sy : Sym) (x : Hex),
      Action.Throw sy x ∈ available_actions b c ↔
        throwsOf b c < 9 ∧ x ∈ ORD_HEXES ∧
          signOf c * x.1 ≥ 4 - (throwsOf b c : Int) := by
    intro sy x
    unfold available_actions
    rw [List.mem_append]
    constructor
    · rintro (h | h)
      · exact (mem_throwActions b c sy x).1 h
      · exact absurd h (throw_not_mem_moveActions b c sy x)
    · intro h
      exact Or.inl ((mem_throwActions b c sy x).2 h)
  refine ⟨hmem, fun h9 => (hmem Sym.r _).2 ⟨h9, ?_, ?_⟩⟩
  · cases c <;> decide
  · cases c <;> simp only [signOf] <;> omega

/-- C4 witness: on the initial board the corner hex of the upper throw zone
receives a rock throw. -/
theorem C4_throw_generation_witness :
    Action.Throw Sym.r (signOf Owner.upper * 4, signOf Owner.upper * (-4)) ∈
      available_actions initialBoard Owner.upper :=
  (C4_throw_generation initialBoard Owner.upper).2 (by decide)

/-- C2 counterexample: on `bC2` the hex (0, 0) is occupied by upper,
(0, 1) is adjacent to it and occupied (by a lower token, hence by at least
one token of either side), (0, 2) is adjacent to the pivot, not adjacent to
(0, 0) and different from it, yet no swing from (0, 0) to (0, 2) is
generated for upper: the source requires the pivot to be occupied by the
moving side itself, not by either side. -/
theorem C2_counterexample :
    (∃ t ∈ bC2.board ((0 : Int), (0 : Int)), t.owner = Owner.upper) ∧
    ((0 : Int), (1 : Int)) ∈ ADJACENT ((0 : Int), (0 : Int)) ∧
    bC2.board ((0 : Int), (1 : Int)) ≠ [] ∧
    ((0 : Int), (2 : Int)) ∈ ADJACENT ((0 : Int), (1 : Int)) ∧
    ((0 : Int), (2 : Int)) ∉ ADJACENT ((0 : Int), (0 : Int)) ∧
    ((0 : Int), (2 : Int)) ≠ ((0 : Int), (0 : Int)) ∧
    Action.Swing ((0 : Int), (0 : Int)) ((0 : Int), (2 : Int)) ∉
      available_actions bC2 Owner.upper := by
  refine ⟨?_, ?_, ?_, ?_, ?_, ?_, ?_⟩ <;> decide

/-- C2 amended: for every state, side, occupied hex x of that side and hex
y adjacent to x, a slide from x to y is always generated; and whenever y is
occupied by the moving side itself (not merely by either side), a swing
from x is generated to every z adjacent to y that is neither adjacent to x
nor x. -/
theorem C2_slide_and_swing_generation (b : Board) (c : Owner) (x y : Hex)
    (hx : x ∈ ORD_HEXES) (hocc : ∃ t ∈ b.board x, t.owner = c) (hy : y ∈ ADJACENT x) :
    Action.Slide x y ∈ available_actions b c ∧
    ∀ z, (∃ t ∈ b.board y, t.owner = c) → z ∈ ADJACENT y → z ∉ ADJACENT x → z ≠ x →
      Action.Swing x z ∈ available_actions b c := by
  have hxo : x ∈ occupiedBy b c := (mem_occupiedBy b c x).2 ⟨hx, hocc⟩
  have hyhex : y ∈ ORD_HEXES := by
    have := hy
    unfold ADJACENT at this
    simp only [List.mem_filter, decide_eq_true_eq] at this
    exact this.2
  constructor
  · unfold available_actions
    exact List.mem_append.2 (Or.inr (slide_mem_moveActions b c x y hxo hy))
  · intro z hoccy hz hz1 hz2
    have hyo : y ∈ occupiedBy b c := (mem_occupiedBy b c y).2 ⟨hyhex, hoccy⟩
    unfold available_actions
    exact List.mem_append.2
      (Or.inr (swing_mem_moveActions b c x y z hxo hy hyo hz hz1 hz2))

/-- C2 witness: with an upper token on the pivot (0, 1), both the slide
from (0, 0) to (0, 1) and the swing from (0, 0) over it to (0, 2) are
generated for upper. -/
theorem C2_slide_and_swing_generation_witness :
    Action.Slide ((0 : Int), (0 : Int)) ((0 : Int), (1 : Int)) ∈
        available_actions bC2W Owner.upper ∧
    Action.Swing ((0 : Int), (0 : Int)) ((0 : Int), (2 : Int)) ∈
        available_actions bC2W Owner.upper := by
  have h := C2_slide_and_swing_generation bC2W Owner.upper (0, 0) (0, 1) (by decide)
    ⟨⟨Owner.upper, Sym.r⟩, by decide, rfl⟩ (by decide)
  exact ⟨h.1, h.2 (0, 2) ⟨⟨Owner.upper, Sym.p⟩, by decide, rfl⟩ (by decide)
    (by decide) (by decide)⟩

/-- C3: on an illegal submitted action (a slide on the empty initial board),
the authoritative update raises before any mutation, but the raised error
carries no data at all: the Python error branch first evaluates
`self.logger.info`, and `Board` defines no `logger` attribute, so an
AttributeError escapes before the exception carrying the rejected action and
the enumeration of legal alternatives is ever constructed, contradicting the
claim (and the docstring of `Board.update`). -/
theorem C3_illegal_action_bare_error :
    update initialBoard (Action.Slide (0, 0) (0, 1)) (Action.Throw Sym.s (-4, 0)) =
      (initialBoard, Except.error ()) := by
  rfl

/-- C5 counterexample: the scenario of the claim is rejected by the
authoritative update: on the empty initial board hex (0, 0) lies outside
both throw zones (upper needs r >= 4, lower needs -r >= 4 at throw count 0),
so `Board.update` raises instead of resolving the battle. -/
theorem C5_counterexample :
    update initialBoard (Action.Throw Sym.r (0, 0)) (Action.Throw Sym.s (0, 0)) =
      (initialBoard, Except.error ()) := by
  rfl

/-- C5 amended: the apply phase of `Board.update` (the code after
validation, equally reached via the unvalidated simulation path) on the
empty board with upper throwing rock to (0, 0) and lower throwing scissors
to (0, 0) leaves exactly the upper rock token on (0, 0), removes the lower
scissors token, and reports deltas (0, -1): zero upper tokens and one lower
token defeated, counts reported negated as everywhere in `_BATTLE`. -/
theorem C5_apply_phase_resolves_rock_vs_scissors :
    (applyTurn initialBoard (Action.Throw Sym.r (0, 0))
        (Action.Throw Sym.s (0, 0))).1.board (0, 0) = [⟨Owner.upper, Sym.r⟩] ∧
    (applyTurn initialBoard (Action.Throw Sym.r (0, 0))
        (Action.Throw Sym.s (0, 0))).2 = (0, -1) := by
  constructor <;> rfl

/-- C8 counterexample: after six completed turns (`nturns = 6`, so the call
decides the seventh turn of the game), the dispatch of `Player.action` in
`oldman.py` still plays the random choice over the legal list and does not
run the depth-first search: with a head-picking stand-in for the random
choice it returns the first legal action, while the search oracle would
have returned `none`.  The random opening therefore covers the first seven
turns, not six. -/
theorem C8_counterexample :
    bC8.nturns = 6 ∧
    oldmanAction bC8 Owner.upper pickC8 dfsC8 =
      some (Action.Throw Sym.r ((-2 : Int), (-2 : Int))) ∧
    dfsC8 bC8 = none := by
  refine ⟨rfl, by decide, rfl⟩

/-- C8 amended: the bounded-DFS agent plays the random choice among its
currently legal actions exactly on the turns with turn counter at most 6
(the first SEVEN turns of the game) and runs the depth-first search only on
the later turns. -/
theorem C8_opening_dispatch (b : Board) (c : Owner)
    (pick : List Action → Option Action) (dfs : Board → Option Action) :
    (b.nturns ≤ 6 → oldmanAction b c pick dfs = pick (available_actions b c)) ∧
    (6 < b.nturns → oldmanAction b c pick dfs = dfs b) := by
  constructor
  · intro h
    unfold oldmanAction
    rw [if_pos h]
  · intro h
    unfold oldmanAction
    rw [if_neg (by omega)]

/-- C8 witness: at turn counter 6 the dispatch plays the random pick over
the generated legal list. -/
theorem C8_opening_dispatch_witness :
    oldmanAction bC8 Owner.upper pickC8 dfsC8 =
      pickC8 (available_actions bC8 Owner.upper) :=
  (C8_opening_dispatch bC8 Owner.upper pickC8 dfsC8).1 (by decide)

/-! Lemmas for the evaluation function. -/

/-- A bind of singleton-or-empty blocks is a filter. -/
theorem bind_singleton_eq_filter {α : Type} (l : List α) (p : α → Bool) (g : α → List α)
    (h : ∀ x, g x = if p x = true then [x] else []) : l.flatMap g = l.filter p := by
  induction l with
  | nil => rfl
  | cons a l ih =>
    rw [List.flatMap_cons, h a, ih]
    cases hp : p a <;> simp [List.filter_cons, hp]

/-- On boards whose stacks hold at most one token, collecting one entry per
matching token agrees with testing only the first token of each hex. -/
theorem collect_agree (board : Hex → List Tok) (q : Tok → Bool)
    (hshort : ∀ pos, (board pos).length ≤ 1) :
    (ORD_HEXES.flatMap fun pos => ((board pos).filter q).map fun _ => pos) =
      ORD_HEXES.filter fun pos =>
        match board pos with
        | [] => false
        | t :: _ => q t := by
  apply bind_singleton_eq_filter
  intro pos
  have h1 := hshort pos
  cases hb : board pos with
  | nil => simp
  | cons t ts =>
    rw [hb] at h1
    have hts : ts = [] := by
      cases ts with
      | nil => rfl
      | cons u us => simp at h1
    subst hts
    cases hq : q t <;> simp [hq]

/-- C6 counterexample: on a board whose only stack is two lower rocks on
(0, 0), evaluated for upper, the source scores -2 (it reads only the first
token of the stack), while the claimed score that subtracts 2 for EVERY
opponent token on the board is -4; the claimed value is not the value of
`eval_pos`. -/
theorem C6_counterexample :
    eval_pos bC6 Owner.upper (-2) ∧ eval_pos_claim bC6 Owner.upper (-4) ∧
      ¬ eval_pos bC6 Owner.upper (-4) := by
  have hor : own_tokens bC6 Owner.upper = fun _ => [] := by
    funext hand
    cases hand <;> decide
  have horc : own_tokens_claim bC6 Owner.upper = fun _ => [] := by
    funext hand
    cases hand <;> decide
  have hopr : opp_tokens bC6 Owner.upper Sym.r = [((0 : Int), (0 : Int))] := by decide
  have hopp : opp_tokens bC6 Owner.upper Sym.p = [] := by decide
  have hops : opp_tokens bC6 Owner.upper Sym.s = [] := by decide
  have hocr : opp_tokens_claim bC6 Owner.upper Sym.r =
      [((0 : Int), (0 : Int)), ((0 : Int), (0 : Int))] := by decide
  have hocp : opp_tokens_claim bC6 Owner.upper Sym.p = [] := by decide
  have hocs : opp_tokens_claim bC6 Owner.upper Sym.s = [] := by decide
  have hkey : ∀ s : ℝ, eval_pos bC6 Owner.upper s ↔ s = -2 := by
    intro s
    unfold eval_pos evalFormula
    rw [hor]
    simp only [List.map_cons, List.map_nil, List.sum_cons, List.sum_nil, hopr, hopp, hops]
    norm_num
  have hkeyc : ∀ s : ℝ, eval_pos_claim bC6 Owner.upper s ↔ s = -4 := by
    intro s
    unfold eval_pos_claim evalFormula
    rw [horc]
    simp only [List.map_cons, List.map_nil, List.sum_cons, List.sum_nil, hocr, hocp, hocs]
    norm_num
  refine ⟨(hkey (-2)).2 (by norm_num), (hkeyc (-4)).2 (by norm_num), fun h => ?_⟩
  have := (hkey (-4)).1 h
  norm_num at this

/-- C6 amended: the evaluation function inspects only the first token of
each nonempty stack; on boards where every hex holds at most one token this
coincides with the claimed per-token reading, and the score is then exactly
the claimed partition formula: (1 + targets over own-category count) over
the minimum distance per own token with targets, 0 for categories without
targets, minus 2 per opponent token. -/
theorem C6_eval_singleton_stacks (board : Hex → List Tok) (colour : Owner)
    (hshort : ∀ pos, (board pos).length ≤ 1) (score : ℝ) :
    eval_pos board colour score ↔ eval_pos_claim board colour score := by
  have hown : own_tokens_claim board colour = own_tokens board colour := by
    funext hand
    exact collect_agree board (fun t => t.owner == colour && t.sym == hand) hshort
  have hopp2 : opp_tokens_claim board colour = opp_tokens board colour := by
    funext hand
    exact collect_agree board (fun t => !(t.owner == colour) && t.sym == hand) hshort
  unfold eval_pos eval_pos_claim
  rw [hown, hopp2]

/-- C6 witness for the amended statement: a single lower rock on (0, 0) is
a board of singleton stacks, and there the two readings agree at score
-2. -/
theorem C6_eval_singleton_stacks_witness :
    eval_pos bC6W Owner.upper (-2) ↔ eval_pos_claim bC6W Owner.upper (-2) :=
  C6_eval_singleton_stacks bC6W Owner.upper
    (fun pos => by
      unfold bC6W
      split <;> simp)
    (-2)

/-- C10: whenever the authoritative update raises, the state it was given is
returned completely unchanged, because both submitted actions are validated
before any mutation begins. -/
theorem C10_error_leaves_state_unchanged (b : Board) (ua la : Action) :
    (update b ua la).2 = Except.error () → (update b ua la).1 = b := by
  unfold update
  split
  · split
    · intro h
      exact absurd h (by simp)
    · intro _; rfl
  · intro _; rfl

/-! Heap-frame lemmas for the minimax search. -/

/-- The frame relation is reflexive. -/
theorem HeapFrame.refl (h : Heap) : HeapFrame h h :=
  ⟨le_refl _, fun _ _ => rfl⟩

/-- The frame relation is transitive. -/
theorem HeapFrame.trans {h1 h2 h3 : Heap} (a : HeapFrame h1 h2) (b : HeapFrame h2 h3) :
    HeapFrame h1 h3 :=
  ⟨le_trans a.1 b.1, fun j hj => (b.2 j (lt_of_lt_of_le hj a.1)).trans (a.2 j hj)⟩

/-- One simulation step (deepcopy an object, half-update the fresh copy)
only writes the fresh index: every previously allocated object survives. -/
theorem simStep_frame (h : Heap) (i : Nat) (a : Action) (c : Owner) :
    HeapFrame h (halfUpdateAt (deepcopy h i).1 (deepcopy h i).2 a c) := by
  constructor
  · simp [halfUpdateAt, Heap.set, deepcopy]
  · intro j hj
    have hne : j ≠ h.next := by omega
    simp [halfUpdateAt, Heap.set, Heap.get, deepcopy, hne]

/-- The throw-pruning loop only writes objects it allocates itself. -/
theorem throwPrune_frame (E : Board → Owner → ℚ) (ch : Action → Action → Action)
    (player : Owner) (bid : Nat) :
    ∀ (l : List Action) (h : Heap) (acts bt : List Action) (bs : Score),
      HeapFrame h (throwPrune E ch player bid l h acts bt bs).2.2.2 := by
  intro l
  induction l with
  | nil =>
    intro h acts bt bs
    exact HeapFrame.refl h
  | cons act rest ih =>
    intro h acts bt bs
    cases act with
    | Throw s x =>
      simp only [throwPrune]
      exact HeapFrame.trans (simStep_frame h bid _ player) (ih _ _ _ _)
    | Slide x y =>
      simp only [throwPrune]
      exact ih _ _ _ _
    | Swing x y =>
      simp only [throwPrune]
      exact ih _ _ _ _

/-- The maximising loop only writes objects allocated during the call,
provided the recursive call does. -/
theorem maxLoop_frame (rec : Heap → Nat → Score → Score → Owner → Option Action →
      Score × Option Action × Heap)
    (player oppP : Owner) (bid : Nat)
    (hrec : ∀ h i alpha beta pl bm, HeapFrame h (rec h i alpha beta pl bm).2.2) :
    ∀ (l : List Action) (h : Heap) (alpha beta ms : Score) (bm : Option Action),
      HeapFrame h (maxLoop rec player oppP bid l h alpha beta ms bm).2.2 := by
  intro l
  induction l with
  | nil =>
    intro h alpha beta ms bm
    exact HeapFrame.refl h
  | cons act rest ih =>
    intro h alpha beta ms bm
    simp only [maxLoop]
    split
    · exact HeapFrame.trans (simStep_frame h bid act player) (hrec _ _ _ _ _ _)
    · exact HeapFrame.trans
        (HeapFrame.trans (simStep_frame h bid act player) (hrec _ _ _ _ _ _))
        (ih _ _ _ _ _)

/-- The minimising loop only writes objects allocated during the call,
provided the recursive call does. -/
theorem minLoop_frame (rec : Heap → Nat → Score → Score → Owner → Option Action →
      Score × Option Action × Heap)
    (player oppP : Owner) (bid : Nat)
    (hrec : ∀ h i alpha beta pl bm, HeapFrame h (rec h i alpha beta pl bm).2.2) :
    ∀ (l : List Action) (h : Heap) (alpha beta ms : Score) (bm : Option Action),
      HeapFrame h (minLoop rec player oppP bid l h alpha beta ms bm).2.2 := by
  intro l
  induction l with
  | nil =>
    intro h alpha beta ms bm
    exact HeapFrame.refl h
  | cons act rest ih =>
    intro h alpha beta ms bm
    simp only [minLoop]
    split
    · exact HeapFrame.trans (simStep_frame h bid act player) (hrec _ _ _ _ _ _)
    · exact HeapFrame.trans
        (HeapFrame.trans (simStep_frame h bid act player) (hrec _ _ _ _ _ _))
        (ih _ _ _ _ _)

/-- The whole search only writes objects it allocates: every object
allocated before the call, in particular the authoritative board, is
untouched at every depth. -/
theorem minimax_frame (E : Board → Owner → ℚ) (ch : Action → Action → Action)
    (self : Owner) :
    ∀ (d : Nat) (h : Heap) (bid : Nat) (alpha beta : Score) (player : Owner)
      (bm : Option Action),
      HeapFrame h (minimax E ch self d h bid alpha beta player bm).2.2 := by
  intro d
  induction d with
  | zero =>
    intro h bid alpha beta player bm
    exact HeapFrame.refl h
  | succ d ih =>
    intro h bid alpha beta player bm
    simp only [minimax]
    split
    · exact HeapFrame.trans
        (throwPrune_frame E ch player bid (available_actions (h.get bid) player) h [] [] ⊥)
        (maxLoop_frame (minimax E ch self d) player (oppOf player) bid
          (fun h2 i a2 b2 pl bm2 => ih h2 i a2 b2 pl bm2) _ _ _ _ _ _)
    · exact HeapFrame.trans
        (throwPrune_frame E ch player bid (available_actions (h.get bid) player) h [] [] ⊥)
        (minLoop_frame (minimax E ch self d) player (oppOf player) bid
          (fun h2 i a2 b2 pl bm2 => ih h2 i a2 b2 pl bm2) _ _ _ _ _ _)

/-- C7: a call to the minimax agent `action` leaves the authoritative board
object completely unchanged (token stacks, both throw counters and the turn
counter alike), for every evaluation oracle and every tie-break oracle:
every simulated move inside the search is applied to a fresh deepcopy,
never to the shared original. -/
theorem C7_action_preserves_state (E : Board → Owner → ℚ)
    (ch : Action → Action → Action) (colour : Owner) (h : Heap) (bid : Nat)
    (hbid : bid < h.next) :
    (playerAction E ch colour h bid).2.get bid = h.get bid :=
  (minimax_frame E ch colour 2 h bid ⊥ ⊤ colour none).2 bid hbid

/-- C7 witness: on a one-object heap the object is untouched by the call. -/
theorem C7_action_preserves_state_witness :
    (playerAction (fun _ _ => 0) (fun a _ => a) Owner.upper heapC7 0).2.get 0 =
      heapC7.get 0 :=
  C7_action_preserves_state (fun _ _ => 0) (fun a _ => a) Owner.upper heapC7 0
    (by decide)

/-! Lemmas for the one-symbol-per-hex invariant. -/

/-- Two present symbols, neither defeated: they are the same symbol. -/
theorem two_sym_key (a b s1 s2 : Sym) (hab : a ≠ b)
    (h1 : s1 = a ∨ s1 = b) (h2 : s2 = a ∨ s2 = b)
    (h1a : s1 ≠ BEATS_WHAT a) (h1b : s1 ≠ BEATS_WHAT b)
    (h2a : s2 ≠ BEATS_WHAT a) (h2b : s2 ≠ BEATS_WHAT b) : s1 = s2 := by
  cases a <;> cases b <;> cases s1 <;> cases s2 <;> simp_all [BEATS_WHAT]

/-- Erasing an element preserves the one-symbol property. -/
theorem oneSym_of_erase (l : List Tok) (x : Tok) (h : oneSym l) : oneSym (l.erase x) :=
  fun t ht u hu => h t (List.mem_of_mem_erase ht) u (List.mem_of_mem_erase hu)

/-- Battle resolution always returns a stack of at most one distinct
symbol: it is the identity on one-symbol stacks, empties three-symbol
stacks, and on two-symbol stacks only the winning symbol survives. -/
theorem oneSym_battle (l : List Tok) : oneSym (battle l).1 := by
  simp only [battle]
  by_cases h1 : (l.map Tok.sym).dedup.length = 1
  · rw [if_pos h1]
    obtain ⟨a, ha⟩ := List.length_eq_one.1 h1
    intro t ht u hu
    have hta : t.sym = a := by
      have hm : t.sym ∈ (l.map Tok.sym).dedup :=
        List.mem_dedup.2 (List.mem_map.2 ⟨t, ht, rfl⟩)
      rw [ha] at hm
      simpa using hm
    have hua : u.sym = a := by
      have hm : u.sym ∈ (l.map Tok.sym).dedup :=
        List.mem_dedup.2 (List.mem_map.2 ⟨u, hu, rfl⟩)
      rw [ha] at hm
      simpa using hm
    rw [hta, hua]
  · rw [if_neg h1]
    by_cases h3 : (l.map Tok.sym).dedup.length = 3
    · rw [if_pos h3]
      intro t ht
      simp at ht
    · rw [if_neg h3]
      rw [foldl_filter (fun t s => decide (s.sym ≠ BEATS_WHAT t))]
      intro t ht u hu
      rw [List.mem_filter] at ht hu
      obtain ⟨htl, htp⟩ := ht
      obtain ⟨hul, hup⟩ := hu
      rw [List.all_eq_true] at htp hup
      have hle : (l.map Tok.sym).dedup.length ≤ 3 := by
        simpa using (l.map Tok.sym).nodup_dedup.length_le_card
      have h02 : (l.map Tok.sym).dedup.length = 0 ∨
          (l.map Tok.sym).dedup.length = 2 := by omega
      rcases h02 with h0 | h2


      · rw [List.length_eq_zero, List.dedup_eq_nil, List.map_eq_nil] at h0
        rw [h0] at htl
        simp at htl
      · obtain ⟨a, b, hab⟩ := List.length_eq_two.1 h2
        have hnd := (l.map Tok.sym).nodup_dedup
        rw [hab, List.nodup_cons] at hnd
        have hne : a ≠ b := by
          intro h
          exact hnd.1 (by rw [h]; exact List.mem_singleton.2 rfl)
        have hta : t.sym = a ∨ t.sym = b := by
          have hm : t.sym ∈ (l.map Tok.sym).dedup :=
            List.mem_dedup.2 (List.mem_map.2 ⟨t, htl, rfl⟩)
          rw [hab] at hm
          simpa using hm
        have hua : u.sym = a ∨ u.sym = b := by
          have hm : u.sym ∈ (l.map Tok.sym).dedup :=
            List.mem_dedup.2 (List.mem_map.2 ⟨u, hul, rfl⟩)
          rw [hab] at hm
          simpa using hm
        have hpa := htp a (by rw [hab]; simp)
        have hpb := htp b (by rw [hab]; simp)
        have hqa := hup a (by rw [hab]; simp)
        have hqb := hup b (by rw [hab]; simp)
        rw [decide_eq_true_iff] at hpa hpb hqa hqb
        exact two_sym_key a b t.sym u.sym hne hta hua hpa hpb hqa hqb

/-- The board mapping after one battle resolution. -/
theorem resolveAt_board (b : Board) (x y : Hex) :
    (resolveAt b x).1.board y =
      if y = x then (battle (b.board x)).1 else b.board y := rfl

/-- One battle resolution preserves the invariant at every hex: the
resolved hex is a battle output, the rest is untouched. -/
theorem oneSym_resolveAt (c : Board) (hx : Hex) (x : Hex)
    (H : x ≠ hx → oneSym (c.board x)) : oneSym ((resolveAt c hx).1.board x) := by
  rw [resolveAt_board]
  split
  · exact oneSym_battle _
  · rename_i h
    exact H h

/-- At any hex other than the touched one, applying one action leaves the
stack unchanged or removes one token from it. -/
theorem applyOne_untouched (b : Board) (a : Action) (c : Owner) (x : Hex)
    (hx : x ≠ (applyOne b a c).2) :
    (applyOne b a c).1.board x = b.board x ∨
      ∃ tok, (applyOne b a c).1.board x = (b.board x).erase tok := by
  cases a with
  | Throw s x0 =>
    left
    have hx0 : x ≠ x0 := by simpa [applyOne] using hx
    cases c <;> simp [applyOne, setHex, hx0]
  | Slide x0 y =>
    have hxy : x ≠ y := by simpa [applyOne] using hx
    by_cases hxx0 : x = x0
    · right
      subst hxx0
      refine ⟨⟨c, match b.board x with | [] => Sym.r | t :: _ => t.sym⟩, ?_⟩
      simp [applyOne, setHex, hxy]
    · left
      simp [applyOne, setHex, hxy, hxx0]
  | Swing x0 y =>
    have hxy : x ≠ y := by simpa [applyOne] using hx
    by_cases hxx0 : x = x0
    · right
      subst hxx0
      refine ⟨⟨c, match b.board x with | [] => Sym.r | t :: _ => t.sym⟩, ?_⟩
      simp [applyOne, setHex, hxy]
    · left
      simp [applyOne, setHex, hxy, hxx0]

/-- The apply phase preserves the one-symbol invariant at every hex. -/
theorem applyTurn_oneSym (b : Board) (H : ∀ y, oneSym (b.board y)) (ua la : Action)
    (x : Hex) : oneSym ((applyTurn b ua la).1.board x) := by
  have hfin : (applyTurn b ua la).1.board x =
      (resolveAt
          (resolveAt (applyOne (applyOne b ua Owner.upper).1 la Owner.lower).1
            (applyOne b ua Owner.upper).2).1
          (applyOne (applyOne b ua Owner.upper).1 la Owner.lower).2).1.board x := rfl
  rw [hfin]
  apply oneSym_resolveAt
  intro hx2
  apply oneSym_resolveAt
  intro hx1
  rcases applyOne_untouched (applyOne b ua Owner.upper).1 la Owner.lower x hx2 with
    hB | ⟨tok, hB⟩ <;>
    rcases applyOne_untouched b ua Owner.upper x hx1 with hA | ⟨tok2, hA⟩ <;>
    rw [hB, hA]
  · exact H x
  · exact oneSym_of_erase _ _ (H x)
  · exact oneSym_of_erase _ _ (H x)
  · exact oneSym_of_erase _ _ (oneSym_of_erase _ _ (H x))

/-- C9: in every state reachable from the empty initial board by validated
authoritative updates, every token stack holds tokens of at most one symbol
category (owners may differ): battle resolution never returns survivors of
two distinct symbols, actions only remove tokens from or battle the touched
hexes, so every update preserves the invariant. -/
theorem C9_one_symbol_per_hex (b : Board) (hb : Reachable b) :
    ∀ (x : Hex), ∀ t ∈ b.board x, ∀ u ∈ b.board x, t.sym = u.sym := by
  induction hb with
  | init =>
    intro x t ht u hu
    simp [initialBoard] at ht
  | step b b2 ua la d hr hupd ih =>
    have hb2 : b2 = (applyTurn b ua la).1 := by
      unfold update at hupd
      split at hupd
      · split at hupd
        · simpa using (congrArg Prod.fst hupd).symm
        · simp at hupd
      · simp at hupd
    subst hb2
    exact fun x => applyTurn_oneSym b (fun y => ih y) ua la x

/-- C9 witness: after one validated turn (a rock thrown to the upper corner
and a scissors thrown to the lower edge) the invariant instantiates at the
upper corner stack. -/
theorem C9_one_symbol_per_hex_witness :
    (Tok.mk Owner.upper Sym.r).sym = (Tok.mk Owner.upper Sym.r).sym := by
  have h2 : (update initialBoard (Action.Throw Sym.r (4, -4))
      (Action.Throw Sym.s (-4, 0))).2 = Except.ok ((0 : Int), (0 : Int)) := by rfl
  have h : update initialBoard (Action.Throw Sym.r (4, -4)) (Action.Throw Sym.s (-4, 0)) =
      ((update initialBoard (Action.Throw Sym.r (4, -4))
          (Action.Throw Sym.s (-4, 0))).1,
        Except.ok ((0 : Int), (0 : Int))) := by
    rw [← h2]
  exact C9_one_symbol_per_hex _
    (Reachable.step _ _ _ _ _ Reachable.init h) (4, -4)
    ⟨Owner.upper, Sym.r⟩ (by decide) ⟨Owner.upper, Sym.r⟩ (by decide)

/-- C10 witness: a rejected slide on the initial board leaves it unchanged. -/
theorem C10_error_leaves_state_unchanged_witness :
    (update initialBoard (Action.Slide (0, 0) (1, 0))
        (Action.Throw Sym.p (-4, 0))).1 = initialBoard :=
  C10_error_leaves_state_unchanged initialBoard (Action.Slide (0, 0) (1, 0))
    (Action.Throw Sym.p (-4, 0)) (by rfl)

end RPS
